import Mathlib

/-!
# Atomic counters (`cmd/atomiccounters/main.go`)

An interleaving model of `main`: the main goroutine and the goroutines it
starts take turns, one atomic action at a time, in an order chosen by a
schedule.  The two constants of the program (50 goroutines, 1000 increments
each) are the parameters `w` and `k`.
-/

namespace AtomicCounters

/-! ## Data model -/

/-- Number of values of a `uint64`. -/
def uint64Size : Nat := 2 ^ 64

/-- The call `atomic.AddUint64(&ops, delta)`: the new value of the `uint64`,
which wraps around. -/
def AddUint64 (v delta : Nat) : Nat := (v + delta) % uint64Size

/-- The counter of a `sync.WaitGroup` after `Add(delta)`; `none` is the panic
`sync: negative WaitGroup counter`. -/
def wgAdd (v delta : Int) : Option Int :=
  if v + delta < 0 then none else some (v + delta)

/-- The call `fmt.Println(operands...)`: the operands in their default format,
separated by spaces, followed by a newline. -/
def Println (operands : List String) : String :=
  " ".intercalate operands ++ "\n"

/-- One goroutine started by `go func() { ... }()`: its loop variable `c`, and
whether its `wg.Done()` has returned (the goroutine is then finished). -/
structure Goroutine where
  c : Nat
  done : Bool
deriving DecidableEq, Repr

/-- Where the main goroutine stands. -/
inductive MainPc where
  /-- at the test `i < 50` of the `for` loop -/
  | forLoop (i : Nat)
  /-- `wg.Add(1)` has returned, the `go` statement of iteration `i` is next -/
  | goStmt (i : Nat)
  /-- at `wg.Wait()` -/
  | wait
  /-- `wg.Wait()` has returned, `fmt.Println("ops:", ops)` is next -/
  | println
  /-- `main` has returned -/
  | exited
deriving DecidableEq, Repr

/-- The state of the program: the variable `ops`, the counter of `wg`, the main
goroutine, the started goroutines in the order of their start, the text written
to standard output, and whether the program has panicked. -/
structure State where
  ops : Nat
  wg : Int
  pc : MainPc
  gs : List Goroutine
  stdout : String
  panicked : Bool
deriving DecidableEq, Repr

/-- The state when `main` starts: `var ops uint64` and `var wg sync.WaitGroup`
are zero values. -/
def init : State :=
  { ops := 0, wg := 0, pc := MainPc.forLoop 0, gs := [], stdout := "", panicked := false }

/-! ## Steps -/

/-- One action of the main goroutine; `none` when it cannot move (it is blocked
in `wg.Wait()`, or the program is over). -/
def stepMain (w : Nat) (s : State) : Option State :=
  if s.panicked then none else
  match s.pc with
  | MainPc.forLoop i =>
    if i < w then
      match wgAdd s.wg 1 with
      | some v => some { s with wg := v, pc := MainPc.goStmt i }
      | none => some { s with panicked := true }
    else some { s with pc := MainPc.wait }
  | MainPc.goStmt i =>
    some { s with gs := s.gs ++ [{ c := 0, done := false }], pc := MainPc.forLoop (i + 1) }
  | MainPc.wait =>
    if s.wg = 0 then some { s with pc := MainPc.println } else none
  | MainPc.println =>
    some { s with stdout := s.stdout ++ Println ["ops:", toString s.ops], pc := MainPc.exited }
  | MainPc.exited => none

/-- One action of the `j`-th started goroutine: one iteration of its loop (the
test `c < 1000`, the atomic add and `c++`), or, after the loop, `wg.Done()`.
`none` when there is no such goroutine, when it has finished, or when the
program is over. -/
def stepWorker (k j : Nat) (s : State) : Option State :=
  if s.panicked ∨ s.pc = MainPc.exited then none else
  match s.gs[j]? with
  | none => none
  | some g =>
    if g.done then none
    else if g.c < k then
      some { s with ops := AddUint64 s.ops 1, gs := s.gs.set j { g with c := g.c + 1 } }
    else
      match wgAdd s.wg (-1) with
      | some v => some { s with wg := v, gs := s.gs.set j { g with done := true } }
      | none => some { s with panicked := true }

/-- Who moves next. -/
inductive Actor where
  | main
  | worker (j : Nat)
deriving DecidableEq, Repr

/-- One step of the program, taken by the given actor. -/
def step (w k : Nat) (a : Actor) (s : State) : Option State :=
  match a with
  | Actor.main => stepMain w s
  | Actor.worker j => stepWorker k j s

/-- Runs a schedule from a state; `none` when some actor of the schedule
cannot move at its turn. -/
def exec (w k : Nat) : List Actor → State → Option State
  | [], s => some s
  | a :: rest, s =>
    match step w k a s with
    | some s' => exec w k rest s'
    | none => none

/-- A state the program can be in. -/
def Reachable (w k : Nat) (s : State) : Prop :=
  ∃ sched : List Actor, exec w k sched init = some s

/-- A state in which `main` has returned. -/
def Complete (w k : Nat) (s : State) : Prop :=
  Reachable w k s ∧ s.pc = MainPc.exited

/-- The number of atomic adds that have returned: the sum of the loop
variables. -/
def completedIncrements (s : State) : Nat :=
  (s.gs.map Goroutine.c).sum

/-- The number of goroutines whose `wg.Done()` has returned. -/
def doneCalls (s : State) : Nat :=
  s.gs.countP (fun g => g.done)

/-- The number of `wg.Add(1)` calls that have returned: one for each started
goroutine, and one more when the `go` statement is next. -/
def registered (s : State) : Nat :=
  s.gs.length + (match s.pc with | MainPc.goStmt _ => 1 | _ => 0)

/-- Steps the main goroutine still has to take. -/
def mainFuel (w : Nat) : MainPc → Nat
  | MainPc.forLoop i => 2 * (w - i) + 3
  | MainPc.goStmt i => 2 * (w - i) + 2
  | MainPc.wait => 2
  | MainPc.println => 1
  | MainPc.exited => 0

/-- Steps a started goroutine still has to take. -/
def workerFuel (k : Nat) (g : Goroutine) : Nat :=
  if g.done then 0 else k - g.c + 1

/-- Steps the whole program still has to take: those of `main`, those of the
started goroutines and those of the goroutines still to be started. -/
def fuel (w k : Nat) (s : State) : Nat :=
  mainFuel w s.pc + (s.gs.map (workerFuel k)).sum + (w - s.gs.length) * (k + 1)

/-- What the place of the main goroutine says about the rest of the state. -/
def PcOk (w : Nat) (pc : MainPc) (gs : List Goroutine) (out : String) (ops : Nat) : Prop :=
  match pc with
  | MainPc.forLoop i => i ≤ w ∧ gs.length = i ∧ out = ""
  | MainPc.goStmt i => i < w ∧ gs.length = i ∧ out = ""
  | MainPc.wait => gs.length = w ∧ out = ""
  | MainPc.println => gs.length = w ∧ (∀ g ∈ gs, g.done = true) ∧ out = ""
  | MainPc.exited =>
    gs.length = w ∧ (∀ g ∈ gs, g.done = true) ∧ out = Println ["ops:", toString ops]

/-- What holds in every state the program can be in. -/
structure Inv (w k : Nat) (s : State) : Prop where
  not_panicked : s.panicked = false
  ops_eq : s.ops = completedIncrements s % uint64Size
  wg_eq : s.wg = (registered s : Int) - (doneCalls s : Int)
  c_le : ∀ g ∈ s.gs, g.c ≤ k
  done_c : ∀ g ∈ s.gs, g.done = true → g.c = k
  pc_ok : PcOk w s.pc s.gs s.stdout s.ops

/-! ## The variant with a non-atomic increment -/

/-- Modelled from the spec: a goroutine of the variant of the program in which
the atomic add is replaced by the non-atomic `ops++` (the source only describes
this variant in a comment). `tmp` is the value of `ops` that an `ops++` has
read and not yet written back. -/
structure NaiveGoroutine where
  c : Nat
  tmp : Option Nat
  done : Bool
deriving DecidableEq, Repr

/-- Modelled from the spec: the state of the variant with the non-atomic
`ops++`, which the source does not contain; the fields are those of `State`. -/
structure NaiveState where
  ops : Nat
  wg : Int
  pc : MainPc
  gs : List NaiveGoroutine
  stdout : String
  panicked : Bool
deriving DecidableEq, Repr

/-- Modelled from the spec: the initial state of the variant with the
non-atomic `ops++`, which the source does not contain. -/
def naiveInit : NaiveState :=
  { ops := 0, wg := 0, pc := MainPc.forLoop 0, gs := [], stdout := "", panicked := false }

/-- Modelled from the spec: one action of the main goroutine in the variant
with the non-atomic `ops++`, which the source does not contain; `main` itself
is unchanged. -/
def naiveStepMain (w : Nat) (s : NaiveState) : Option NaiveState :=
  if s.panicked then none else
  match s.pc with
  | MainPc.forLoop i =>
    if i < w then
      match wgAdd s.wg 1 with
      | some v => some { s with wg := v, pc := MainPc.goStmt i }
      | none => some { s with panicked := true }
    else some { s with pc := MainPc.wait }
  | MainPc.goStmt i =>
    some { s with gs := s.gs ++ [{ c := 0, tmp := none, done := false }],
                  pc := MainPc.forLoop (i + 1) }
  | MainPc.wait =>
    if s.wg = 0 then some { s with pc := MainPc.println } else none
  | MainPc.println =>
    some { s with stdout := s.stdout ++ Println ["ops:", toString s.ops], pc := MainPc.exited }
  | MainPc.exited => none

/-- Modelled from the spec: one action of the `j`-th goroutine in the variant
with the non-atomic `ops++`, which the source does not contain. The increment
is two actions, between which other goroutines can move: reading `ops`, then
writing the value read plus one. -/
def naiveStepWorker (k j : Nat) (s : NaiveState) : Option NaiveState :=
  if s.panicked ∨ s.pc = MainPc.exited then none else
  match s.gs[j]? with
  | none => none
  | some g =>
    if g.done then none
    else if g.c < k then
      match g.tmp with
      | none => some { s with gs := s.gs.set j { g with tmp := some s.ops } }
      | some v =>
        some { s with ops := (v + 1) % uint64Size,
                      gs := s.gs.set j { g with c := g.c + 1, tmp := none } }
    else
      match wgAdd s.wg (-1) with
      | some v => some { s with wg := v, gs := s.gs.set j { g with done := true } }
      | none => some { s with panicked := true }

/-- Modelled from the spec: one step of the variant with the non-atomic
`ops++`, which the source does not contain. -/
def naiveStep (w k : Nat) (a : Actor) (s : NaiveState) : Option NaiveState :=
  match a with
  | Actor.main => naiveStepMain w s
  | Actor.worker j => naiveStepWorker k j s

/-- Modelled from the spec: runs a schedule of the variant with the non-atomic
`ops++`, which the source does not contain. -/
def naiveExec (w k : Nat) : List Actor → NaiveState → Option NaiveState
  | [], s => some s
  | a :: rest, s =>
    match naiveStep w k a s with
    | some s' => naiveExec w k rest s'
    | none => none

/-- The schedule in which the first two goroutines both read `ops` before
either writes it back. -/
def lossyPrefix : List Actor :=
  [Actor.main, Actor.main, Actor.main, Actor.main,
   Actor.worker 0, Actor.worker 1, Actor.worker 1, Actor.worker 0]

/-- Steps still to take from a state of the variant in which no increment is
half done, an increment counting for one. -/
def naiveFuel (w k : Nat) (s : NaiveState) : Nat :=
  mainFuel w s.pc + (s.gs.map (fun g => if g.done then 0 else k - g.c + 1)).sum
    + (w - s.gs.length) * (k + 1)

/-- What holds in the states of the variant in which no increment is half done
and `lost` increments have been overwritten. -/
structure NaiveInv (w k lost : Nat) (s : NaiveState) : Prop where
  not_panicked : s.panicked = false
  ops_lt : s.ops < uint64Size
  ops_eq : (s.ops + lost) % uint64Size = (s.gs.map NaiveGoroutine.c).sum % uint64Size
  wg_eq : s.wg = ((s.gs.length + (match s.pc with | MainPc.goStmt _ => 1 | _ => 0) : Nat) : Int)
    - (s.gs.countP (fun g => g.done) : Int)
  quiet : ∀ g ∈ s.gs, g.tmp = none
  c_le : ∀ g ∈ s.gs, g.c ≤ k
  done_c : ∀ g ∈ s.gs, g.done = true → g.c = k
  pc_ok :
    match s.pc with
    | MainPc.forLoop i => i ≤ w ∧ s.gs.length = i
    | MainPc.goStmt i => i < w ∧ s.gs.length = i
    | MainPc.wait => s.gs.length = w
    | MainPc.println => s.gs.length = w ∧ (∀ g ∈ s.gs, g.done = true)
    | MainPc.exited => s.gs.length = w ∧ (∀ g ∈ s.gs, g.done = true)

/-! ## Lists of goroutines -/

theorem sum_map_set {α : Type} (f : α → Nat) :
    ∀ (l : List α) (j : Nat) (g x : α), l[j]? = some g →
      ((l.set j x).map f).sum + f g = (l.map f).sum + f x := by
  intro l
  induction l with
  | nil => intro j g x h; simp at h
  | cons a t ih =>
    intro j g x h
    cases j with
    | zero =>
      simp at h
      subst h
      simp
      omega
    | succ n =>
      simp at h
      have := ih n g x h
      simp only [List.set_cons_succ, List.map_cons, List.sum_cons]
      omega

theorem countP_set {α : Type} (p : α → Bool) :
    ∀ (l : List α) (j : Nat) (g x : α), l[j]? = some g →
      (l.set j x).countP p + (if p g then 1 else 0)
        = l.countP p + (if p x then 1 else 0) := by
  intro l
  induction l with
  | nil => intro j g x h; simp at h
  | cons a t ih =>
    intro j g x h
    cases j with
    | zero =>
      simp at h
      subst h
      simp [List.countP_cons]
      omega
    | succ n =>
      simp at h
      have := ih n g x h
      simp [List.countP_cons]
      omega

theorem mem_of_getElem?_eq_some {α : Type} {l : List α} {j : Nat} {g : α}
    (h : l[j]? = some g) : g ∈ l := by
  rw [List.getElem?_eq_some] at h
  obtain ⟨hj, rfl⟩ := h
  exact List.getElem_mem hj

theorem sum_map_const {α : Type} (f : α → Nat) (n : Nat) :
    ∀ l : List α, (∀ a ∈ l, f a = n) → (l.map f).sum = l.length * n := by
  intro l
  induction l with
  | nil => intro _; simp
  | cons a t ih =>
    intro h
    have h1 : f a = n := h a (List.mem_cons_self a t)
    have h2 := ih (fun b hb => h b (List.mem_cons_of_mem a hb))
    simp [h1, h2, Nat.succ_mul]
    omega

theorem sum_map_append_singleton {α : Type} (f : α → Nat) (l : List α) (a : α) :
    ((l ++ [a]).map f).sum = (l.map f).sum + f a := by
  simp

theorem exists_not_of_countP_lt {α : Type} (p : α → Bool) :
    ∀ l : List α, l.countP p < l.length → ∃ (j : Nat) (a : α), l[j]? = some a ∧ p a = false := by
  intro l
  induction l with
  | nil => intro h; simp at h
  | cons a t ih =>
    intro h
    by_cases hp : p a = true
    · simp [List.countP_cons, hp] at h
      obtain ⟨j, b, hj, hb⟩ := ih h
      exact ⟨j + 1, b, by simpa using hj, hb⟩
    · exact ⟨0, a, by simp, by simpa using hp⟩

/-! ## The invariant -/

theorem pcOk_of_running {w : Nat} {pc : MainPc} {gs gs' : List Goroutine} {out : String}
    {ops ops' : Nat} {g : Goroutine} (hmem : g ∈ gs) (hd : g.done = false)
    (hlen : gs'.length = gs.length) (h : PcOk w pc gs out ops) : PcOk w pc gs' out ops' := by
  cases pc with
  | forLoop i => simpa [PcOk, hlen] using h
  | goStmt i => simpa [PcOk, hlen] using h
  | wait => simpa [PcOk, hlen] using h
  | println =>
    have := h.2.1 g hmem
    simp [hd] at this
  | exited =>
    have := h.2.1 g hmem
    simp [hd] at this

theorem inv_init (w k : Nat) : Inv w k init := by
  refine ⟨rfl, ?_, ?_, ?_, ?_, ?_⟩ <;>
    simp [init, completedIncrements, registered, doneCalls, uint64Size, PcOk]

theorem inv_stepMain {w k : Nat} {s s' : State} (hi : Inv w k s)
    (h : stepMain w s = some s') : Inv w k s' := by
  obtain ⟨ops, wg, pc, gs, out, pan⟩ := s
  obtain ⟨h1, h2, h3, h4, h5, h6⟩ := hi
  simp only at h1 h2 h3 h4 h5 h6
  subst h1
  cases pc with
  | forLoop i =>
    simp only [registered, doneCalls, completedIncrements, PcOk] at h2 h3 h6
    obtain ⟨hiw, hlen, hout⟩ := h6
    have hc : List.countP (fun g => g.done) gs ≤ gs.length := List.countP_le_length _
    by_cases hlt : i < w
    · have hwg : ¬ (wg + 1 < 0) := by omega
      simp [stepMain, wgAdd, hlt, hwg] at h
      subst h
      refine ⟨rfl, h2, ?_, h4, h5, ?_⟩
      · simp only [registered, doneCalls]; omega
      · exact ⟨hlt, hlen, hout⟩
    · simp [stepMain, hlt] at h
      subst h
      refine ⟨rfl, h2, ?_, h4, h5, ?_⟩
      · simp only [registered, doneCalls]; omega
      · exact ⟨by dsimp only; omega, hout⟩
  | goStmt i =>
    simp only [registered, doneCalls, completedIncrements, PcOk] at h2 h3 h6
    obtain ⟨hiw, hlen, hout⟩ := h6
    simp [stepMain] at h
    subst h
    refine ⟨rfl, ?_, ?_, ?_, ?_, ?_⟩
    · simp [completedIncrements, h2]
    · simp [registered, doneCalls, h3]
    · intro g hg
      simp at hg
      rcases hg with hg | hg
      · exact h4 g hg
      · subst hg; simp
    · intro g hg hd
      simp at hg
      rcases hg with hg | hg
      · exact h5 g hg hd
      · subst hg; simp at hd
    · simp only [PcOk, List.length_append, List.length_singleton]
      exact ⟨by omega, by omega, hout⟩
  | wait =>
    simp only [registered, doneCalls, completedIncrements, PcOk] at h2 h3 h6
    obtain ⟨hlen, hout⟩ := h6
    by_cases hz : wg = 0
    · simp [stepMain, hz] at h
      subst h
      refine ⟨rfl, h2, ?_, h4, h5, ?_⟩
      · simp only [registered, doneCalls]; omega
      · refine ⟨hlen, ?_, hout⟩
        have hcount : List.countP (fun g => g.done) gs = gs.length := by omega
        have := (List.countP_eq_length (p := fun g : Goroutine => g.done) (l := gs)).1 hcount
        exact this
    · simp [stepMain, hz] at h
  | println =>
    simp only [registered, doneCalls, completedIncrements, PcOk] at h2 h3 h6
    obtain ⟨hlen, hdone, hout⟩ := h6
    simp [stepMain] at h
    subst h
    refine ⟨rfl, h2, ?_, h4, h5, ?_⟩
    · simp only [registered, doneCalls]; omega
    · exact ⟨hlen, hdone, by simp [hout]⟩
  | exited => simp [stepMain] at h

theorem inv_stepWorker {w k j : Nat} {s s' : State} (hi : Inv w k s)
    (h : stepWorker k j s = some s') : Inv w k s' := by
  obtain ⟨ops, wg, pc, gs, out, pan⟩ := s
  obtain ⟨h1, h2, h3, h4, h5, h6⟩ := hi
  simp only at h1 h2 h3 h4 h5 h6
  subst h1
  simp only [registered, doneCalls, completedIncrements] at h2 h3
  by_cases hex : pc = MainPc.exited
  · simp [stepWorker, hex] at h
  · cases hg : gs[j]? with
    | none => simp [stepWorker, hg] at h
    | some g =>
      have hmem : g ∈ gs := mem_of_getElem?_eq_some hg
      obtain ⟨c, d⟩ := g
      cases d with
      | true => simp [stepWorker, hg, hex] at h
      | false =>
        by_cases hc : c < k
        · simp [stepWorker, hg, hc, hex] at h
          subst h
          have hs := sum_map_set Goroutine.c gs j ⟨c, false⟩ ⟨c + 1, false⟩ hg
          dsimp only at hs
          have hcp := countP_set (fun g => g.done) gs j ⟨c, false⟩ ⟨c + 1, false⟩ hg
          simp only [Bool.false_eq_true, if_false, Nat.add_zero] at hcp
          refine ⟨rfl, ?_, ?_, ?_, ?_, ?_⟩
          · simp only [completedIncrements, AddUint64, h2]
            have : (List.map Goroutine.c (gs.set j ⟨c + 1, false⟩)).sum
                = (List.map Goroutine.c gs).sum + 1 := by omega
            rw [this, Nat.mod_add_mod]
          · simp only [registered, doneCalls, List.length_set, hcp]
            exact h3
          · intro g' hg'
            rcases List.mem_or_eq_of_mem_set hg' with hm | he
            · exact h4 g' hm
            · subst he; exact hc
          · intro g' hg' hdone
            rcases List.mem_or_eq_of_mem_set hg' with hm | he
            · exact h5 g' hm hdone
            · subst he; simp at hdone
          · exact pcOk_of_running hmem rfl (List.length_set _ _ _) h6
        · have hck : c = k := by have := h4 _ hmem; simp only at this; omega
          have hcp := countP_set (fun g => g.done) gs j ⟨c, false⟩ ⟨c, true⟩ hg
          simp only [Bool.false_eq_true, if_false, if_true, Nat.add_zero] at hcp
          have hle : List.countP (fun g => g.done) (gs.set j ⟨c, true⟩)
              ≤ (gs.set j ⟨c, true⟩).length := List.countP_le_length _
          rw [List.length_set] at hle
          have hpos : ¬ (wg + -1 < 0) := by
            have : (0 : Int) ≤ ((match pc with | MainPc.goStmt _ => 1 | _ => 0 : Nat) : Int) :=
              Int.ofNat_nonneg _
            omega
          simp [stepWorker, hg, hc, hex, wgAdd, hpos] at h
          subst h
          have hs := sum_map_set Goroutine.c gs j ⟨c, false⟩ ⟨c, true⟩ hg
          dsimp only at hs
          refine ⟨rfl, ?_, ?_, ?_, ?_, ?_⟩
          · simp only [completedIncrements, h2]
            have : (List.map Goroutine.c (gs.set j ⟨c, true⟩)).sum
                = (List.map Goroutine.c gs).sum := by simpa using hs
            rw [this]
          · simp only [registered, doneCalls, List.length_set]
            omega
          · intro g' hg'
            rcases List.mem_or_eq_of_mem_set hg' with hm | he
            · exact h4 g' hm
            · subst he; exact Nat.le_of_eq hck
          · intro g' hg' hdone
            rcases List.mem_or_eq_of_mem_set hg' with hm | he
            · exact h5 g' hm hdone
            · subst he; exact hck
          · exact pcOk_of_running hmem rfl (List.length_set _ _ _) h6

theorem inv_step {w k : Nat} {a : Actor} {s s' : State} (hi : Inv w k s)
    (h : step w k a s = some s') : Inv w k s' := by
  cases a with
  | main => exact inv_stepMain hi h
  | worker j => exact inv_stepWorker hi h

theorem inv_exec {w k : Nat} :
    ∀ (sched : List Actor) {s s' : State}, Inv w k s → exec w k sched s = some s' →
      Inv w k s' := by
  intro sched
  induction sched with
  | nil =>
    intro s s' hi h
    simp only [exec, Option.some.injEq] at h
    subst h
    exact hi
  | cons a rest ih =>
    intro s s' hi h
    simp only [exec] at h
    cases hs : step w k a s with
    | none => simp [hs] at h
    | some t =>
      rw [hs] at h
      exact ih (inv_step hi hs) h

theorem inv_of_reachable {w k : Nat} {s : State} (h : Reachable w k s) : Inv w k s := by
  obtain ⟨sched, hs⟩ := h
  exact inv_exec sched (inv_init w k) hs

theorem exec_append (w k : Nat) :
    ∀ (p q : List Actor) (s : State),
      exec w k (p ++ q) s = (exec w k p s).bind (exec w k q) := by
  intro p
  induction p with
  | nil => intro q s; simp [exec]
  | cons a rest ih =>
    intro q s
    simp only [List.cons_append, exec]
    cases step w k a s with
    | none => simp
    | some t => simpa using ih q t

theorem reachable_exec {w k : Nat} {s s' : State} {sched : List Actor}
    (h : Reachable w k s) (he : exec w k sched s = some s') : Reachable w k s' := by
  obtain ⟨p, hp⟩ := h
  exact ⟨p ++ sched, by rw [exec_append, hp]; simpa using he⟩

theorem reachable_step {w k : Nat} {s s' : State} {a : Actor}
    (h : Reachable w k s) (he : step w k a s = some s') : Reachable w k s' :=
  @reachable_exec w k s s' [a] h (by simp [exec, he])

/-! ## Every step uses up one unit of fuel -/

theorem fuel_stepMain {w k : Nat} {s s' : State} (hi : Inv w k s)
    (h : stepMain w s = some s') : fuel w k s' + 1 = fuel w k s := by
  obtain ⟨ops, wg, pc, gs, out, pan⟩ := s
  obtain ⟨h1, h2, h3, h4, h5, h6⟩ := hi
  simp only at h1 h2 h3 h4 h5 h6
  subst h1
  cases pc with
  | forLoop i =>
    simp only [registered, doneCalls, PcOk] at h3 h6
    obtain ⟨hiw, hlen, hout⟩ := h6
    have hc : List.countP (fun g => g.done) gs ≤ gs.length := List.countP_le_length _
    by_cases hlt : i < w
    · have hwg : ¬ (wg + 1 < 0) := by omega
      simp [stepMain, wgAdd, hlt, hwg] at h
      subst h
      simp only [fuel, mainFuel]
      omega
    · simp [stepMain, hlt] at h
      subst h
      simp only [fuel, mainFuel]
      omega
  | goStmt i =>
    simp only [PcOk] at h6
    obtain ⟨hiw, hlen, hout⟩ := h6
    simp [stepMain] at h
    subst h
    simp only [fuel, mainFuel, List.map_append, List.sum_append, List.length_append,
      List.map_cons, List.map_nil, List.sum_cons, List.sum_nil, List.length_singleton,
      workerFuel, hlen]
    obtain ⟨x, rfl⟩ : ∃ x, w = i + 1 + x := ⟨w - (i + 1), by omega⟩
    have e1 : i + 1 + x - i = x + 1 := by omega
    have e2 : i + 1 + x - (i + 1) = x := by omega
    have e3 : (x + 1) * (k + 1) = x * (k + 1) + (k + 1) := Nat.succ_mul x (k + 1)
    simp only [e1, e2, Bool.false_eq_true, if_false]
    omega
  | wait =>
    by_cases hz : wg = 0
    · simp [stepMain, hz] at h
      subst h
      simp only [fuel, mainFuel]
      omega
    · simp [stepMain, hz] at h
  | println =>
    simp [stepMain] at h
    subst h
    simp only [fuel, mainFuel]
    omega
  | exited => simp [stepMain] at h

theorem wg_pos_of_running {w k : Nat} {s : State} (hi : Inv w k s) {j : Nat} {g : Goroutine}
    (hg : s.gs[j]? = some g) (hd : g.done = false) : 0 < s.wg := by
  have hcp := countP_set (fun g => g.done) s.gs j g ⟨g.c, true⟩ hg
  simp only [hd, Bool.false_eq_true, if_false, if_true, Nat.add_zero] at hcp
  have hle : List.countP (fun g => g.done) (s.gs.set j ⟨g.c, true⟩)
      ≤ (s.gs.set j ⟨g.c, true⟩).length := List.countP_le_length _
  rw [List.length_set] at hle
  have h3 := hi.wg_eq
  simp only [registered, doneCalls] at h3
  have : (0 : Int) ≤ ((match s.pc with | MainPc.goStmt _ => 1 | _ => 0 : Nat) : Int) :=
    Int.ofNat_nonneg _
  omega

theorem fuel_stepWorker {w k j : Nat} {s s' : State} (hi : Inv w k s) :
    stepWorker k j s = some s' → fuel w k s' + 1 = fuel w k s := by
  intro h
  obtain ⟨ops, wg, pc, gs, out, pan⟩ := s
  cases pan with
  | true => simp [stepWorker] at h
  | false =>
  by_cases hex : pc = MainPc.exited
  · simp [stepWorker, hex] at h
  · cases hg : gs[j]? with
    | none => simp [stepWorker, hg] at h
    | some g =>
      obtain ⟨c, d⟩ := g
      cases d with
      | true => simp [stepWorker, hg, hex] at h
      | false =>
        by_cases hc : c < k
        · simp [stepWorker, hg, hc, hex] at h
          subst h
          have hs := sum_map_set (workerFuel k) gs j ⟨c, false⟩ ⟨c + 1, false⟩ hg
          simp only [workerFuel, Bool.false_eq_true, if_false] at hs
          simp only [fuel, List.length_set]
          omega
        · cases hw : wgAdd wg (-1) with
          | none =>
            have hpos := wg_pos_of_running hi hg rfl
            simp only at hpos
            have hn : ¬ (wg + -1 < 0) := by omega
            simp [wgAdd, hn] at hw
          | some v =>
            simp [stepWorker, hg, hc, hex, hw] at h
            subst h
            have hs := sum_map_set (workerFuel k) gs j ⟨c, false⟩ ⟨c, true⟩ hg
            simp only [workerFuel, Bool.false_eq_true, if_false, if_true] at hs
            simp only [fuel, List.length_set]
            omega

theorem fuel_step {w k : Nat} {a : Actor} {s s' : State} (hi : Inv w k s)
    (h : step w k a s = some s') : fuel w k s' + 1 = fuel w k s := by
  cases a with
  | main => exact fuel_stepMain hi h
  | worker j => exact fuel_stepWorker hi h

theorem progress {w k : Nat} {s : State} (hi : Inv w k s) (hne : s.pc ≠ MainPc.exited) :
    ∃ a s', step w k a s = some s' := by
  obtain ⟨ops, wg, pc, gs, out, pan⟩ := s
  have h1 := hi.not_panicked
  simp only at h1 hne
  subst h1
  cases pc with
  | forLoop i =>
    by_cases hlt : i < w
    · cases hw : wgAdd wg 1 with
      | none => exact ⟨Actor.main, _, by simp [step, stepMain, hlt, hw]; rfl⟩
      | some v => exact ⟨Actor.main, _, by simp [step, stepMain, hlt, hw]; rfl⟩
    · exact ⟨Actor.main, _, by simp [step, stepMain, hlt]; rfl⟩
  | goStmt i => exact ⟨Actor.main, _, by simp [step, stepMain]; rfl⟩
  | wait =>
    by_cases hz : wg = 0
    · exact ⟨Actor.main, _, by simp [step, stepMain, hz]; rfl⟩
    · have h3 := hi.wg_eq
      simp only [registered, doneCalls] at h3
      have hle : List.countP (fun g => g.done) gs ≤ gs.length := List.countP_le_length _
      have hlt : List.countP (fun g => g.done) gs < gs.length := by omega
      obtain ⟨j, g, hg, hd⟩ := exists_not_of_countP_lt _ gs hlt
      have hpos := wg_pos_of_running hi hg hd
      simp only at hpos
      have hn : ¬ (wg + -1 < 0) := by omega
      obtain ⟨c, d⟩ := g
      simp only at hd
      subst hd
      by_cases hc : c < k
      · exact ⟨Actor.worker j, _, by simp [step, stepWorker, hg, hc]; rfl⟩
      · exact ⟨Actor.worker j, _, by simp [step, stepWorker, hg, hc, wgAdd, hn]; rfl⟩
  | println => exact ⟨Actor.main, _, by simp [step, stepMain]; rfl⟩
  | exited => exact (hne rfl).elim

theorem exists_run_to_exit {w k : Nat} :
    ∀ (n : Nat) (s : State), Inv w k s → fuel w k s = n →
      ∃ sched s', exec w k sched s = some s' ∧ s'.pc = MainPc.exited := by
  intro n
  induction n with
  | zero =>
    intro s hi hf
    by_cases hx : s.pc = MainPc.exited
    · exact ⟨[], s, rfl, hx⟩
    · obtain ⟨a, s1, h1⟩ := progress hi hx
      have := fuel_step hi h1
      omega
  | succ m ih =>
    intro s hi hf
    by_cases hx : s.pc = MainPc.exited
    · exact ⟨[], s, rfl, hx⟩
    · obtain ⟨a, s1, h1⟩ := progress hi hx
      have hf1 := fuel_step hi h1
      obtain ⟨sched, s', he, hp⟩ := ih s1 (inv_step hi h1) (by omega)
      exact ⟨a :: sched, s', by simp [exec, h1, he], hp⟩

theorem exists_complete (w k : Nat) : ∃ s, Complete w k s := by
  obtain ⟨sched, s', he, hp⟩ := exists_run_to_exit (fuel w k init) init (inv_init w k) rfl
  exact ⟨s', ⟨sched, he⟩, hp⟩

/-! ## The state when `main` has returned -/

theorem completed_of_all_done {w k : Nat} {s : State} (hi : Inv w k s)
    (hlen : s.gs.length = w) (hall : ∀ g ∈ s.gs, g.done = true) :
    completedIncrements s = w * k := by
  have := sum_map_const Goroutine.c k s.gs (fun g hg => hi.done_c g hg (hall g hg))
  simp only [completedIncrements, this, hlen]

theorem ops_of_all_done {w k : Nat} {s : State} (hi : Inv w k s)
    (hlen : s.gs.length = w) (hall : ∀ g ∈ s.gs, g.done = true) :
    s.ops = (w * k) % uint64Size := by
  rw [hi.ops_eq, completed_of_all_done hi hlen hall]

theorem complete_ops {w k : Nat} {s : State} (h : Complete w k s) :
    s.ops = (w * k) % uint64Size := by
  have hi := inv_of_reachable h.1
  have hp := hi.pc_ok
  rw [h.2] at hp
  exact ops_of_all_done hi hp.1 hp.2.1

theorem complete_stdout {w k : Nat} {s : State} (h : Complete w k s) :
    s.stdout = Println ["ops:", toString ((w * k) % uint64Size)] := by
  have hi := inv_of_reachable h.1
  have hp := hi.pc_ok
  rw [h.2] at hp
  rw [hp.2.2, complete_ops h]

theorem sum_map_le {α : Type} (f : α → Nat) (n : Nat) :
    ∀ l : List α, (∀ a ∈ l, f a ≤ n) → (l.map f).sum ≤ l.length * n := by
  intro l
  induction l with
  | nil => intro _; simp
  | cons a t ih =>
    intro h
    have h1 : f a ≤ n := h a (List.mem_cons_self a t)
    have h2 := ih (fun b hb => h b (List.mem_cons_of_mem a hb))
    simp only [List.map_cons, List.sum_cons, List.length_cons, Nat.succ_mul]
    omega

theorem length_le_of_inv {w k : Nat} {s : State} (hi : Inv w k s) : s.gs.length ≤ w := by
  have hp := hi.pc_ok
  cases hpc : s.pc with
  | forLoop i => rw [hpc] at hp; have := hp.1; have := hp.2.1; omega
  | goStmt i => rw [hpc] at hp; have := hp.1; have := hp.2.1; omega
  | wait => rw [hpc] at hp; exact Nat.le_of_eq hp.1
  | println => rw [hpc] at hp; exact Nat.le_of_eq hp.1
  | exited => rw [hpc] at hp; exact Nat.le_of_eq hp.1

theorem completed_le {w k : Nat} {s : State} (hi : Inv w k s) :
    completedIncrements s ≤ w * k := by
  have h1 := sum_map_le Goroutine.c k s.gs hi.c_le
  have h2 : s.gs.length * k ≤ w * k := Nat.mul_le_mul_right k (length_le_of_inv hi)
  exact Nat.le_trans h1 h2

theorem ops_eq_completed {w k : Nat} {s : State} (hi : Inv w k s)
    (hfit : w * k < uint64Size) : s.ops = completedIncrements s := by
  rw [hi.ops_eq]
  exact Nat.mod_eq_of_lt (Nat.lt_of_le_of_lt (completed_le hi) hfit)

/-! ## What one step does -/

theorem stepMain_keeps {w : Nat} {s s' : State} (h : stepMain w s = some s') :
    s'.ops = s.ops ∧ completedIncrements s' = completedIncrements s
      ∧ doneCalls s' = doneCalls s := by
  obtain ⟨ops, wg, pc, gs, out, pan⟩ := s
  cases pan with
  | true => simp [stepMain] at h
  | false =>
  cases pc with
  | forLoop i =>
    by_cases hlt : i < w
    · cases hw : wgAdd wg 1 with
      | none =>
        simp [stepMain, hlt, hw] at h
        subst h
        exact ⟨rfl, rfl, rfl⟩
      | some v =>
        simp [stepMain, hlt, hw] at h
        subst h
        exact ⟨rfl, rfl, rfl⟩
    · simp [stepMain, hlt] at h
      subst h
      exact ⟨rfl, rfl, rfl⟩
  | goStmt i =>
    simp [stepMain] at h
    subst h
    refine ⟨rfl, ?_, ?_⟩
    · simp [completedIncrements]
    · simp [doneCalls]
  | wait =>
    by_cases hz : wg = 0
    · simp [stepMain, hz] at h
      subst h
      exact ⟨rfl, rfl, rfl⟩
    · simp [stepMain, hz] at h
  | println =>
    simp [stepMain] at h
    subst h
    exact ⟨rfl, rfl, rfl⟩
  | exited => simp [stepMain] at h

theorem stepWorker_cases {w k j : Nat} {s s' : State} (hi : Inv w k s)
    (h : stepWorker k j s = some s') :
    ∃ c, s.gs[j]? = some ⟨c, false⟩ ∧
      ((c < k ∧ s' = { s with ops := AddUint64 s.ops 1, gs := s.gs.set j ⟨c + 1, false⟩ })
        ∨ (c = k ∧ s' = { s with wg := s.wg - 1, gs := s.gs.set j ⟨c, true⟩ })) := by
  obtain ⟨ops, wg, pc, gs, out, pan⟩ := s
  have h1 := hi.not_panicked
  simp only at h1
  subst h1
  by_cases hex : pc = MainPc.exited
  · simp [stepWorker, hex] at h
  · cases hg : gs[j]? with
    | none => simp [stepWorker, hg] at h
    | some g =>
      obtain ⟨c, d⟩ := g
      cases d with
      | true => simp [stepWorker, hg, hex] at h
      | false =>
        refine ⟨c, rfl, ?_⟩
        by_cases hc : c < k
        · simp [stepWorker, hg, hc, hex] at h
          exact Or.inl ⟨hc, h.symm⟩
        · have hck : c = k := by
            have := hi.c_le _ (mem_of_getElem?_eq_some hg)
            simp only at this
            omega
          have hpos := wg_pos_of_running hi hg rfl
          simp only at hpos
          have hn : ¬ (wg + -1 < 0) := by omega
          simp [stepWorker, hg, hc, hex, wgAdd, hn] at h
          refine Or.inr ⟨hck, ?_⟩
          rw [← h]
          simp only [State.mk.injEq, true_and, and_true]
          omega

theorem stepWorker_counts {w k j : Nat} {s s' : State} (hi : Inv w k s)
    (h : stepWorker k j s = some s') :
    (s'.ops = AddUint64 s.ops 1 ∧ completedIncrements s' = completedIncrements s + 1
        ∧ doneCalls s' = doneCalls s ∧ s'.wg = s.wg)
      ∨ (s'.ops = s.ops ∧ completedIncrements s' = completedIncrements s
        ∧ doneCalls s' = doneCalls s + 1 ∧ s'.wg = s.wg - 1) := by
  obtain ⟨c, hg, hcase⟩ := stepWorker_cases hi h
  rcases hcase with ⟨_, rfl⟩ | ⟨_, rfl⟩
  · left
    have hs := sum_map_set Goroutine.c s.gs j ⟨c, false⟩ ⟨c + 1, false⟩ hg
    have hcp := countP_set (fun g => g.done) s.gs j ⟨c, false⟩ ⟨c + 1, false⟩ hg
    simp only [Bool.false_eq_true, if_false, Nat.add_zero] at hcp
    dsimp only at hs
    refine ⟨rfl, ?_, hcp, rfl⟩
    simp only [completedIncrements]
    omega
  · right
    have hs := sum_map_set Goroutine.c s.gs j ⟨c, false⟩ ⟨c, true⟩ hg
    have hcp := countP_set (fun g => g.done) s.gs j ⟨c, false⟩ ⟨c, true⟩ hg
    simp only [Bool.false_eq_true, if_false, if_true, Nat.add_zero] at hcp
    dsimp only at hs
    refine ⟨rfl, ?_, hcp, rfl⟩
    simp only [completedIncrements]
    omega

theorem step_counts {w k : Nat} {a : Actor} {s s' : State} (hi : Inv w k s)
    (h : step w k a s = some s') :
    (s'.ops = AddUint64 s.ops 1 ∧ completedIncrements s' = completedIncrements s + 1)
      ∨ (s'.ops = s.ops ∧ completedIncrements s' = completedIncrements s) := by
  cases a with
  | main =>
    have := stepMain_keeps h
    exact Or.inr ⟨this.1, this.2.1⟩
  | worker j =>
    rcases stepWorker_counts hi h with h1 | h1
    · exact Or.inl ⟨h1.1, h1.2.1⟩
    · exact Or.inr ⟨h1.1, h1.2.1⟩

theorem stepWorker_done_none {k j : Nat} {s : State} {g : Goroutine}
    (hg : s.gs[j]? = some g) (hd : g.done = true) : stepWorker k j s = none := by
  simp [stepWorker, hg, hd]

/-! ## The variant with a non-atomic increment: runs that lose no further increment -/

theorem naiveExec_append (w k : Nat) :
    ∀ (p q : List Actor) (s : NaiveState),
      naiveExec w k (p ++ q) s = (naiveExec w k p s).bind (naiveExec w k q) := by
  intro p
  induction p with
  | nil => intro q s; simp [naiveExec]
  | cons a rest ih =>
    intro q s
    simp only [List.cons_append, naiveExec]
    cases naiveStep w k a s with
    | none => simp
    | some t => simpa using ih q t

theorem uint64Size_pos : 0 < uint64Size := by
  simp [uint64Size]

theorem naive_progress {w k lost : Nat} {s : NaiveState} (hi : NaiveInv w k lost s)
    (hne : s.pc ≠ MainPc.exited) :
    ∃ sched s', naiveExec w k sched s = some s' ∧ NaiveInv w k lost s'
      ∧ naiveFuel w k s' + 1 = naiveFuel w k s := by
  obtain ⟨ops, wg, pc, gs, out, pan⟩ := s
  obtain ⟨h1, hlt, h2, h3, hq, h4, h5, h6⟩ := hi
  simp only at h1 hlt h2 h3 hq h4 h5 h6 hne
  subst h1
  have hcle : List.countP (fun g => g.done) gs ≤ gs.length := List.countP_le_length _
  cases pc with
  | forLoop i =>
    simp only at h3 h6
    obtain ⟨hiw, hlen⟩ := h6
    by_cases hi' : i < w
    · have hwg : ¬ (wg + 1 < 0) := by omega
      refine ⟨[Actor.main], _, by simp [naiveExec, naiveStep, naiveStepMain, hi', wgAdd, hwg]; rfl,
        ⟨rfl, hlt, h2, ?_, hq, h4, h5, ?_⟩, ?_⟩
      · simp only; omega
      · exact ⟨hi', hlen⟩
      · simp only [naiveFuel, mainFuel]; omega
    · refine ⟨[Actor.main], _, by simp [naiveExec, naiveStep, naiveStepMain, hi']; rfl,
        ⟨rfl, hlt, h2, ?_, hq, h4, h5, ?_⟩, ?_⟩
      · simp only; omega
      · simp only; omega
      · simp only [naiveFuel, mainFuel]; omega
  | goStmt i =>
    simp only at h3 h6
    obtain ⟨hiw, hlen⟩ := h6
    refine ⟨[Actor.main], _, by simp [naiveExec, naiveStep, naiveStepMain]; rfl,
      ⟨rfl, hlt, ?_, ?_, ?_, ?_, ?_, ?_⟩, ?_⟩
    · simpa using h2
    · simp only [List.length_append, List.length_singleton, List.countP_append,
        List.countP_cons, List.countP_nil]
      simp only [Bool.false_eq_true, if_false]
      omega
    · intro g hg
      simp at hg
      rcases hg with hg | hg
      · exact hq g hg
      · subst hg; rfl
    · intro g hg
      simp at hg
      rcases hg with hg | hg
      · exact h4 g hg
      · subst hg; simp
    · intro g hg hd
      simp at hg
      rcases hg with hg | hg
      · exact h5 g hg hd
      · subst hg; simp at hd
    · simp only [List.length_append, List.length_singleton]
      exact ⟨by omega, by omega⟩
    · simp only [naiveFuel, mainFuel, sum_map_append_singleton, List.length_append,
        List.length_singleton, hlen]
      obtain ⟨x, rfl⟩ : ∃ x, w = i + 1 + x := ⟨w - (i + 1), by omega⟩
      have e1 : i + 1 + x - i = x + 1 := by omega
      have e2 : i + 1 + x - (i + 1) = x := by omega
      simp only [e1, e2, Bool.false_eq_true, if_false, Nat.sub_zero]
      ring
  | wait =>
    simp only at h3 h6
    by_cases hz : wg = 0
    · refine ⟨[Actor.main], _, by simp [naiveExec, naiveStep, naiveStepMain, hz]; rfl,
        ⟨rfl, hlt, h2, ?_, hq, h4, h5, ?_⟩, ?_⟩
      · simp only; omega
      · refine ⟨h6, ?_⟩
        have hcount : List.countP (fun g => g.done) gs = gs.length := by omega
        exact (List.countP_eq_length (p := fun g : NaiveGoroutine => g.done) (l := gs)).1 hcount
      · simp only [naiveFuel, mainFuel]; omega
    · have hlt' : List.countP (fun g => g.done) gs < gs.length := by omega
      obtain ⟨j, g, hg, hd⟩ := exists_not_of_countP_lt _ gs hlt'
      have hmem : g ∈ gs := mem_of_getElem?_eq_some hg
      have hjl : j < gs.length := by
        rw [List.getElem?_eq_some] at hg
        exact hg.1
      obtain ⟨c, t, d⟩ := g
      simp only at hd
      subst hd
      have ht : t = none := hq _ hmem
      subst ht
      by_cases hc : c < k
      · have hs := sum_map_set NaiveGoroutine.c gs j ⟨c, none, false⟩ ⟨c + 1, none, false⟩ hg
        have hf := sum_map_set (fun g : NaiveGoroutine => if g.done then 0 else k - g.c + 1)
          gs j ⟨c, none, false⟩ ⟨c + 1, none, false⟩ hg
        have hcp := countP_set (fun g => g.done) gs j ⟨c, none, false⟩ ⟨c + 1, none, false⟩ hg
        simp only [Bool.false_eq_true, if_false, Nat.add_zero] at hcp hf
        dsimp only at hs
        refine ⟨[Actor.worker j, Actor.worker j],
          { ops := (ops + 1) % uint64Size, wg := wg, pc := MainPc.wait,
            gs := gs.set j ⟨c + 1, none, false⟩, stdout := out, panicked := false }, ?_,
          ⟨rfl, Nat.mod_lt _ uint64Size_pos, ?_, ?_, ?_, ?_, ?_, ?_⟩, ?_⟩
        · simp [naiveExec, naiveStep, naiveStepWorker, hg, hc, hjl]
        · have e : (List.map NaiveGoroutine.c (gs.set j ⟨c + 1, none, false⟩)).sum
              = (List.map NaiveGoroutine.c gs).sum + 1 := by omega
          simp only [e]
          rw [Nat.mod_add_mod, ← Nat.mod_add_mod ((List.map NaiveGoroutine.c gs).sum), ← h2,
            Nat.mod_add_mod]
          congr 1
          omega
        · simp only [List.length_set, hcp]
          exact h3
        · intro g' hg'
          rcases List.mem_or_eq_of_mem_set hg' with hm | he
          · exact hq g' hm
          · subst he; rfl
        · intro g' hg'
          rcases List.mem_or_eq_of_mem_set hg' with hm | he
          · exact h4 g' hm
          · subst he; exact hc
        · intro g' hg' hdone
          rcases List.mem_or_eq_of_mem_set hg' with hm | he
          · exact h5 g' hm hdone
          · subst he; simp at hdone
        · simpa using h6
        · simp only [naiveFuel, List.length_set]
          omega
      · have hck : c = k := by have := h4 _ hmem; simp only at this; omega
        have hs := sum_map_set NaiveGoroutine.c gs j ⟨c, none, false⟩ ⟨c, none, true⟩ hg
        have hf := sum_map_set (fun g : NaiveGoroutine => if g.done then 0 else k - g.c + 1)
          gs j ⟨c, none, false⟩ ⟨c, none, true⟩ hg
        have hcp := countP_set (fun g => g.done) gs j ⟨c, none, false⟩ ⟨c, none, true⟩ hg
        simp only [Bool.false_eq_true, if_false, if_true, Nat.add_zero] at hcp hf
        dsimp only at hs
        have hle : List.countP (fun g => g.done) (gs.set j ⟨c, none, true⟩)
            ≤ (gs.set j ⟨c, none, true⟩).length := List.countP_le_length _
        rw [List.length_set] at hle
        have hpos : ¬ (wg + -1 < 0) := by omega
        refine ⟨[Actor.worker j],
          { ops := ops, wg := wg + -1, pc := MainPc.wait,
            gs := gs.set j ⟨c, none, true⟩, stdout := out, panicked := false }, ?_,
          ⟨rfl, hlt, ?_, ?_, ?_, ?_, ?_, ?_⟩, ?_⟩
        · simp [naiveExec, naiveStep, naiveStepWorker, hg, hc, wgAdd, hpos]
        · have e : (List.map NaiveGoroutine.c (gs.set j ⟨c, none, true⟩)).sum
              = (List.map NaiveGoroutine.c gs).sum := by omega
          simp only [e]
          exact h2
        · simp only [List.length_set]
          omega
        · intro g' hg'
          rcases List.mem_or_eq_of_mem_set hg' with hm | he
          · exact hq g' hm
          · subst he; rfl
        · intro g' hg'
          rcases List.mem_or_eq_of_mem_set hg' with hm | he
          · exact h4 g' hm
          · subst he; exact Nat.le_of_eq hck
        · intro g' hg' hdone
          rcases List.mem_or_eq_of_mem_set hg' with hm | he
          · exact h5 g' hm hdone
          · subst he; exact hck
        · simpa using h6
        · simp only [naiveFuel, List.length_set]
          omega
  | println =>
    simp only at h3 h6
    refine ⟨[Actor.main], _, by simp [naiveExec, naiveStep, naiveStepMain]; rfl,
      ⟨rfl, hlt, h2, ?_, hq, h4, h5, ?_⟩, ?_⟩
    · simp only; omega
    · exact h6
    · simp only [naiveFuel, mainFuel]; omega
  | exited => exact (hne rfl).elim

theorem naive_exists_run {w k lost : Nat} :
    ∀ (n : Nat) (s : NaiveState), NaiveInv w k lost s → naiveFuel w k s = n →
      ∃ sched s', naiveExec w k sched s = some s' ∧ s'.pc = MainPc.exited
        ∧ NaiveInv w k lost s' := by
  intro n
  induction n with
  | zero =>
    intro s hi hf
    by_cases hx : s.pc = MainPc.exited
    · exact ⟨[], s, rfl, hx, hi⟩
    · obtain ⟨p, s1, _, _, h3⟩ := naive_progress hi hx
      omega
  | succ m ih =>
    intro s hi hf
    by_cases hx : s.pc = MainPc.exited
    · exact ⟨[], s, rfl, hx, hi⟩
    · obtain ⟨p, s1, h1, h2, h3⟩ := naive_progress hi hx
      obtain ⟨q, s', he, hp, hi'⟩ := ih s1 h2 (by omega)
      exact ⟨p ++ q, s', by rw [naiveExec_append, h1]; simpa using he, hp, hi'⟩

theorem naive_final {w k lost : Nat} {s : NaiveState} (hi : NaiveInv w k lost s)
    (hx : s.pc = MainPc.exited) :
    (s.ops + lost) % uint64Size = (w * k) % uint64Size ∧ s.ops < uint64Size := by
  have hp := hi.pc_ok
  rw [hx] at hp
  have := sum_map_const NaiveGoroutine.c k s.gs (fun g hg => hi.done_c g hg (hp.2 g hg))
  rw [hp.1] at this
  rw [← this]
  exact ⟨hi.ops_eq, hi.ops_lt⟩

theorem naive_inv_init (w k : Nat) : NaiveInv w k 0 naiveInit := by
  refine ⟨rfl, ?_, ?_, ?_, ?_, ?_, ?_, ?_⟩ <;> simp [naiveInit, uint64Size]

theorem naive_lossyPrefix {w k : Nat} (hw : 2 ≤ w) (hk : 1 ≤ k) :
    ∃ s, naiveExec w k lossyPrefix naiveInit = some s ∧ NaiveInv w k 1 s := by
  have h0 : 0 < w := by omega
  have h1 : 1 < w := by omega
  have hk0 : 0 < k := by omega
  refine ⟨{ ops := 1, wg := 2, pc := MainPc.forLoop 2,
            gs := [⟨1, none, false⟩, ⟨1, none, false⟩], stdout := "", panicked := false }, ?_, ?_⟩
  · simp [lossyPrefix, naiveExec, naiveStep, naiveStepMain, naiveStepWorker, naiveInit, wgAdd,
      h0, h1, hk0, uint64Size]
  · refine ⟨rfl, ?_, ?_, ?_, ?_, ?_, ?_, ?_⟩
    · simp [uint64Size]
    · simp [uint64Size]
    · simp
    · intro g hg; simp at hg; subst hg; rfl
    · intro g hg; simp at hg; subst hg; exact hk
    · intro g hg hd; simp at hg; subst hg; simp at hd
    · exact ⟨hw, rfl⟩

theorem naive_run_exact (w k : Nat) :
    ∃ sched s, naiveExec w k sched naiveInit = some s ∧ s.pc = MainPc.exited
      ∧ s.ops = (w * k) % uint64Size := by
  obtain ⟨q, s, he, hx, hi⟩ := naive_exists_run (naiveFuel w k naiveInit) naiveInit
    (naive_inv_init w k) rfl
  have hf := naive_final hi hx
  refine ⟨q, s, he, hx, ?_⟩
  have h1 : s.ops % uint64Size = s.ops := Nat.mod_eq_of_lt hf.2
  rw [← hf.1, Nat.add_zero, h1]

theorem naive_run_lossy {w k : Nat} (hw : 2 ≤ w) (hk : 1 ≤ k) :
    ∃ sched s, naiveExec w k sched naiveInit = some s ∧ s.pc = MainPc.exited
      ∧ (s.ops + 1) % uint64Size = (w * k) % uint64Size ∧ s.ops < uint64Size := by
  obtain ⟨s0, h0, hi0⟩ := naive_lossyPrefix hw hk
  obtain ⟨q, s, he, hx, hi⟩ := naive_exists_run (naiveFuel w k s0) s0 hi0 rfl
  have hf := naive_final hi hx
  exact ⟨lossyPrefix ++ q, s, by rw [naiveExec_append, h0]; simpa using he, hx, hf.1, hf.2⟩

theorem lossy_lt {M n x : Nat} (hM : 1 < M) (hn : 1 ≤ n) (hx : x < M)
    (h : (x + 1) % M = n % M) : x < n ∧ x ≠ n % M := by
  have hxm : x % M = x := Nat.mod_eq_of_lt hx
  constructor
  · by_contra hge
    have hnx : n ≤ x := Nat.le_of_not_lt hge
    have hnm : n % M = n := Nat.mod_eq_of_lt (by omega)
    rw [hnm] at h
    by_cases hs : x + 1 < M
    · rw [Nat.mod_eq_of_lt hs] at h; omega
    · have : x + 1 = M := by omega
      rw [this, Nat.mod_self] at h
      omega
  · intro he
    rw [← he] at h
    by_cases hs : x + 1 < M
    · rw [Nat.mod_eq_of_lt hs] at h; omega
    · have : x + 1 = M := by omega
      rw [this, Nat.mod_self] at h
      omega

theorem stdout_empty_before_exit {w k : Nat} {s : State} (hi : Inv w k s)
    (hne : s.pc ≠ MainPc.exited) : s.stdout = "" := by
  have hp := hi.pc_ok
  cases hpc : s.pc with
  | forLoop i => rw [hpc] at hp; exact hp.2.2
  | goStmt i => rw [hpc] at hp; exact hp.2.2
  | wait => rw [hpc] at hp; exact hp.2
  | println => rw [hpc] at hp; exact hp.2.2
  | exited => exact (hne hpc).elim

theorem complete_shape {w k : Nat} {s : State} (h : Complete w k s) :
    s.gs.length = w ∧ (∀ g ∈ s.gs, g.c = k ∧ g.done = true) ∧ s.wg = 0
      ∧ s.panicked = false := by
  have hi := inv_of_reachable h.1
  have hp := hi.pc_ok
  rw [h.2] at hp
  refine ⟨hp.1, fun g hg => ⟨hi.done_c g hg (hp.2.1 g hg), hp.2.1 g hg⟩, ?_, hi.not_panicked⟩
  have h3 := hi.wg_eq
  have hc : s.gs.countP (fun g => g.done) = s.gs.length :=
    (List.countP_eq_length (p := fun g : Goroutine => g.done) (l := s.gs)).2 hp.2.1
  simp only [registered, doneCalls, h.2, hc] at h3
  omega

/-! ## Properties of the harness -/

/-- C3: the program as written (50 goroutines, 1000 increments each) runs to
the end of `main`; every run reads 50000 and its whole output is the one line
`ops: 50000`; nothing is printed before. -/
theorem main_prints_ops_50000 :
    (∃ s, Complete 50 1000 s)
      ∧ (∀ s, Complete 50 1000 s → s.ops = 50000 ∧ s.stdout = "ops: 50000\n")
      ∧ (∀ s, Reachable 50 1000 s → s.pc ≠ MainPc.exited → s.stdout = "") := by
  refine ⟨exists_complete 50 1000, ?_, ?_⟩
  · intro s hs
    have h1 := complete_ops hs
    have h2 := complete_stdout hs
    have e : (50 * 1000) % uint64Size = 50000 := by norm_num [uint64Size]
    rw [e] at h1 h2
    refine ⟨h1, ?_⟩
    rw [h2]
    decide
  · intro s hs hne
    exact stdout_empty_before_exit (inv_of_reachable hs) hne

/-- C8: the counter is created with value 0: `ops` is 0 when `main` starts, and
in every state in which no goroutine has been started yet. -/
theorem counter_starts_at_zero (w k : Nat) (s : State) (h : Reachable w k s)
    (hno : s.gs = []) : init.ops = 0 ∧ s.ops = 0 := by
  refine ⟨rfl, ?_⟩
  have := (inv_of_reachable h).ops_eq
  simpa [completedIncrements, hno] using this

/-- Witness of C8: the program as written, after its first `wg.Add(1)` and
before its first `go` statement. -/
theorem counter_starts_at_zero_witness :
    Reachable 50 1000
        { ops := 0, wg := 1, pc := MainPc.goStmt 0, gs := [], stdout := "", panicked := false }
      ∧ init.ops = 0 ∧ (0 : Nat) = 0 :=
  have hr : Reachable 50 1000
      { ops := 0, wg := 1, pc := MainPc.goStmt 0, gs := [], stdout := "", panicked := false } :=
    ⟨[Actor.main], by decide⟩
  ⟨hr, counter_starts_at_zero 50 1000 _ hr rfl⟩

/-- C2, as stated, fails: with 3 goroutines of 2^63 - 1 increments each, the
value read at the end of a run is 2^63 - 3, which is not the sum of all
increments, 3 * (2^63 - 1): the `uint64` counter has wrapped around. -/
theorem final_value_not_sum_counterexample :
    ∃ s, Complete 3 (2 ^ 63 - 1) s ∧ completedIncrements s = 3 * (2 ^ 63 - 1)
      ∧ s.ops = 2 ^ 63 - 3 ∧ s.ops ≠ 3 * (2 ^ 63 - 1) := by
  obtain ⟨s, hs⟩ := exists_complete 3 (2 ^ 63 - 1)
  have h1 := complete_ops hs
  have hsh := complete_shape hs
  have hc := completed_of_all_done (inv_of_reachable hs.1) hsh.1 (fun g hg => (hsh.2.1 g hg).2)
  have e : (3 * (2 ^ 63 - 1)) % uint64Size = 2 ^ 63 - 3 := by norm_num [uint64Size]
  rw [e] at h1
  refine ⟨s, hs, hc, h1, ?_⟩
  rw [h1]
  norm_num

/-- C2 (amended): the final counter value does not depend on scheduling: any
two schedules that run the harness to the end of `main` (any two interleavings
of the steps of `main` and of the `w` goroutines) read the same value and print
the same text; that value is the sum of all `w * k` increments modulo 2^64,
hence the sum itself whenever `w * k < 2^64`. -/
theorem final_value_schedule_independent (w k : Nat) (p q : List Actor) (s t : State)
    (hp : exec w k p init = some s) (hq : exec w k q init = some t)
    (hs : s.pc = MainPc.exited) (ht : t.pc = MainPc.exited) :
    s.ops = t.ops ∧ s.stdout = t.stdout ∧ completedIncrements s = w * k
      ∧ s.ops = (w * k) % 2 ^ 64 ∧ (w * k < 2 ^ 64 → s.ops = w * k) := by
  have cs : Complete w k s := ⟨⟨p, hp⟩, hs⟩
  have ct : Complete w k t := ⟨⟨q, hq⟩, ht⟩
  have hsh := complete_shape cs
  refine ⟨by rw [complete_ops cs, complete_ops ct],
    by rw [complete_stdout cs, complete_stdout ct],
    completed_of_all_done (inv_of_reachable cs.1) hsh.1 (fun g hg => (hsh.2.1 g hg).2),
    complete_ops cs, ?_⟩
  intro hfit
  rw [complete_ops cs]
  exact Nat.mod_eq_of_lt hfit

/-- Witness of C2 (amended): two goroutines of one increment each, once run one
after the other and once interleaved. -/
theorem final_value_schedule_independent_witness :
    exec 2 1 [Actor.main, Actor.main, Actor.main, Actor.main, Actor.main, Actor.worker 0,
        Actor.worker 0, Actor.worker 1, Actor.worker 1, Actor.main, Actor.main] init
        = some { ops := 2, wg := 0, pc := MainPc.exited, gs := [⟨1, true⟩, ⟨1, true⟩],
                 stdout := "ops: 2\n", panicked := false }
      ∧ exec 2 1 [Actor.main, Actor.main, Actor.worker 0, Actor.main, Actor.main,
        Actor.worker 1, Actor.worker 0, Actor.main, Actor.worker 1, Actor.main, Actor.main] init
        = some { ops := 2, wg := 0, pc := MainPc.exited, gs := [⟨1, true⟩, ⟨1, true⟩],
                 stdout := "ops: 2\n", panicked := false }
      ∧ (2 : Nat) = (2 * 1) % 2 ^ 64 :=
  ⟨by decide, by decide,
    (final_value_schedule_independent 2 1 _ _ _ _
      (show exec 2 1 [Actor.main, Actor.main, Actor.main, Actor.main, Actor.main,
        Actor.worker 0, Actor.worker 0, Actor.worker 1, Actor.worker 1, Actor.main,
        Actor.main] init
        = some { ops := 2, wg := 0, pc := MainPc.exited, gs := [⟨1, true⟩, ⟨1, true⟩],
                 stdout := "ops: 2\n", panicked := false } by decide)
      (show exec 2 1 [Actor.main, Actor.main, Actor.worker 0, Actor.main, Actor.main,
        Actor.worker 1, Actor.worker 0, Actor.main, Actor.worker 1, Actor.main, Actor.main] init
        = some { ops := 2, wg := 0, pc := MainPc.exited, gs := [⟨1, true⟩, ⟨1, true⟩],
                 stdout := "ops: 2\n", panicked := false } by decide)
      rfl rfl).2.2.2.1⟩

/-- C4: the harness never reads the counter while a writer remains. In every
reachable state the WaitGroup counts at least the started goroutines that have
not yet called `wg.Done()` (each `wg.Add(1)` came before its `go` statement).
In every reachable state in which `main` stands at `wg.Wait()`, all `w`
goroutines have been registered and started, the WaitGroup counts exactly those
that have not yet called `wg.Done()`, and the wait can return only when all have. In every reachable state in which the wait has returned and the
read of `ops` is next, every one of the `w` goroutines has made its `k`
increments and called `wg.Done()`, none of them can move any more, and the value
read is the counter after all `w * k` increments. -/
theorem read_after_all_workers_done (w k : Nat) (s : State) (h : Reachable w k s) :
    (s.gs.length : Int) - (doneCalls s : Int) ≤ s.wg
      ∧ (s.pc = MainPc.wait →
          s.gs.length = w ∧ s.wg = (w : Int) - (doneCalls s : Int)
            ∧ (stepMain w s ≠ none → ∀ g ∈ s.gs, g.done = true))
      ∧ (s.pc = MainPc.println →
          s.gs.length = w ∧ (∀ g ∈ s.gs, g.c = k ∧ g.done = true)
            ∧ (∀ j, stepWorker k j s = none)
            ∧ completedIncrements s = w * k ∧ s.ops = (w * k) % 2 ^ 64
            ∧ stepMain w s = some { s with
                stdout := s.stdout ++ Println ["ops:", toString s.ops],
                pc := MainPc.exited }) := by
  have hi := inv_of_reachable h
  refine ⟨?_, ?_, ?_⟩
  · have h3 := hi.wg_eq
    simp only [registered] at h3
    have : (0 : Int) ≤ ((match s.pc with | MainPc.goStmt _ => 1 | _ => 0 : Nat) : Int) :=
      Int.ofNat_nonneg _
    omega
  · intro hpc
    have hp := hi.pc_ok
    rw [hpc] at hp
    have h3 := hi.wg_eq
    simp only [registered, hpc, hp.1, Nat.add_zero] at h3
    refine ⟨hp.1, h3, ?_⟩
    intro hstep
    have hz : s.wg = 0 := by
      by_contra hne
      exact hstep (by simp [stepMain, hi.not_panicked, hpc, hne])
    have hcount : s.gs.countP (fun g => g.done) = s.gs.length := by
      have := hp.1
      simp only [doneCalls] at h3
      omega
    exact (List.countP_eq_length (p := fun g : Goroutine => g.done) (l := s.gs)).1 hcount
  · intro hpc
    have hp := hi.pc_ok
    rw [hpc] at hp
    refine ⟨hp.1, fun g hg => ⟨hi.done_c g hg (hp.2.1 g hg), hp.2.1 g hg⟩, ?_,
      completed_of_all_done hi hp.1 hp.2.1, ops_of_all_done hi hp.1 hp.2.1, ?_⟩
    · intro j
      cases hg : s.gs[j]? with
      | none => simp [stepWorker, hg]
      | some g => exact stepWorker_done_none hg (hp.2.1 g (mem_of_getElem?_eq_some hg))
    · simp [stepMain, hi.not_panicked, hpc]

/-- Witness of C4: one goroutine of one increment, in the state in which the
wait has returned. -/
theorem read_after_all_workers_done_witness :
    Reachable 1 1
        { ops := 1, wg := 0, pc := MainPc.println, gs := [⟨1, true⟩], stdout := "",
          panicked := false }
      ∧ ∀ j, stepWorker 1 j
          { ops := 1, wg := 0, pc := MainPc.println, gs := [⟨1, true⟩], stdout := "",
            panicked := false } = none :=
  have hr : Reachable 1 1
      { ops := 1, wg := 0, pc := MainPc.println, gs := [⟨1, true⟩], stdout := "",
        panicked := false } :=
    ⟨[Actor.main, Actor.main, Actor.worker 0, Actor.main, Actor.worker 0, Actor.main],
      by decide⟩
  ⟨hr, ((read_after_all_workers_done 1 1 _ hr).2.2 rfl).2.2.1⟩

/-- C5, as stated, fails: with 5 goroutines of 2^62 increments each, a state is
reached in which 5 * 2^62 increments have completed while the `uint64` counter,
having wrapped around, holds 2^62. -/
theorem counter_not_count_counterexample :
    ∃ s, Reachable 5 (2 ^ 62) s ∧ completedIncrements s = 5 * 2 ^ 62 ∧ s.ops = 2 ^ 62
      ∧ s.ops ≠ completedIncrements s := by
  obtain ⟨s, hs⟩ := exists_complete 5 (2 ^ 62)
  have h1 := complete_ops hs
  have hsh := complete_shape hs
  have hc := completed_of_all_done (inv_of_reachable hs.1) hsh.1 (fun g hg => (hsh.2.1 g hg).2)
  have e : (5 * 2 ^ 62) % uint64Size = 2 ^ 62 := by norm_num [uint64Size]
  rw [e] at h1
  refine ⟨s, hs.1, hc, h1, ?_⟩
  rw [h1, hc]
  norm_num

/-- C5 (amended): counter invariant. The atomic add is a single step, so no
increment is ever in flight between two steps; in every reachable state the
counter holds the number of increments completed so far modulo 2^64, hence that
number itself whenever `w * k < 2^64`. Every step either is one atomic add, which
completes one more increment and changes the counter by exactly +1 (wrapping at
2^64, and not wrapping when `w * k < 2^64`), or leaves both the counter and the
number of completed increments unchanged. -/
theorem counter_counts_completed_increments (w k : Nat) (s : State)
    (h : Reachable w k s) :
    s.ops = completedIncrements s % 2 ^ 64
      ∧ (w * k < 2 ^ 64 → s.ops = completedIncrements s)
      ∧ (∀ a s', step w k a s = some s' →
          (s'.ops = (s.ops + 1) % 2 ^ 64
              ∧ completedIncrements s' = completedIncrements s + 1
              ∧ (w * k < 2 ^ 64 → s'.ops = s.ops + 1))
            ∨ (s'.ops = s.ops ∧ completedIncrements s' = completedIncrements s)) := by
  have hi := inv_of_reachable h
  refine ⟨hi.ops_eq, fun hfit => ops_eq_completed hi hfit, ?_⟩
  intro a s' hstep
  rcases step_counts hi hstep with h1 | h1
  · refine Or.inl ⟨h1.1, h1.2, ?_⟩
    intro hfit
    have hi' := inv_step hi hstep
    rw [ops_eq_completed hi' hfit, ops_eq_completed hi hfit, h1.2]
  · exact Or.inr h1

/-- Witness of C5 (amended): two goroutines of two increments each, after the
first increment of the first goroutine. -/
theorem counter_counts_completed_increments_witness :
    Reachable 2 2
        { ops := 1, wg := 1, pc := MainPc.forLoop 1, gs := [⟨1, false⟩], stdout := "",
          panicked := false }
      ∧ (1 : Nat) = completedIncrements
          { ops := 1, wg := 1, pc := MainPc.forLoop 1, gs := [⟨1, false⟩], stdout := "",
            panicked := false } :=
  have hr : Reachable 2 2
      { ops := 1, wg := 1, pc := MainPc.forLoop 1, gs := [⟨1, false⟩], stdout := "",
        panicked := false } :=
    ⟨[Actor.main, Actor.main, Actor.worker 0], by decide⟩
  ⟨hr, (counter_counts_completed_increments 2 2 _ hr).2.1 (by norm_num)⟩

/-- C6: with the non-atomic increment (read `ops`, then write the value read
plus one, as two steps between which other goroutines can move), for every
`w ≥ 2` and `k ≥ 1` some schedule runs the harness to the end of `main` with a
final value strictly below `w * k`, and two schedules run it to the end of `main`
with different final values. -/
theorem naive_increment_loses_updates (w k : Nat) (hw : 2 ≤ w) (hk : 1 ≤ k) :
    (∃ sched s, naiveExec w k sched naiveInit = some s ∧ s.pc = MainPc.exited
        ∧ s.ops < w * k)
      ∧ (∃ p q s t, naiveExec w k p naiveInit = some s ∧ naiveExec w k q naiveInit = some t
        ∧ s.pc = MainPc.exited ∧ t.pc = MainPc.exited ∧ s.ops ≠ t.ops) := by
  obtain ⟨p, s, hp, hs, hmod, hlt⟩ := naive_run_lossy hw hk
  obtain ⟨q, t, hq, ht, hexact⟩ := naive_run_exact w k
  have hM : 1 < uint64Size := by simp [uint64Size]
  have hn : 1 ≤ w * k := Nat.mul_pos (by omega) hk
  have hl := lossy_lt hM hn hlt hmod
  refine ⟨⟨p, s, hp, hs, hl.1⟩, ⟨p, q, s, t, hp, hq, hs, ht, ?_⟩⟩
  rw [hexact]
  exact hl.2

/-- Witness of C6: two goroutines of one increment each; when both read before
either writes, the final value is 1, and when they run one after the other it
is 2. -/
theorem naive_increment_loses_updates_witness :
    (naiveExec 2 1 (lossyPrefix ++ [Actor.main, Actor.worker 0, Actor.worker 1, Actor.main,
        Actor.main]) naiveInit).map NaiveState.ops = some 1
      ∧ (naiveExec 2 1 [Actor.main, Actor.main, Actor.main, Actor.main, Actor.main,
        Actor.worker 0, Actor.worker 0, Actor.worker 0, Actor.worker 1, Actor.worker 1,
        Actor.worker 1, Actor.main, Actor.main] naiveInit).map NaiveState.ops = some 2
      ∧ ∃ sched s, naiveExec 2 1 sched naiveInit = some s ∧ s.pc = MainPc.exited
        ∧ s.ops < 2 * 1 :=
  ⟨by decide, by decide, (naive_increment_loses_updates 2 1 (by decide) (by decide)).1⟩

/-- C10: the `uint64` counter never overflows when `w * k < 2^64`: in every
reachable state the counter is at most `w * k` and equals the number of
increments made so far; every atomic add starts from a value whose successor is
at most `w * k`, below 2^64, so it does not wrap; and the value that `main`
reads after the wait is the mathematical sum `w * k`. In the reference scenario
(50 goroutines, 1000 increments each) every value of the counter is at most
50000, which is below 2^64. -/
theorem counter_never_overflows (w k : Nat) (hfit : w * k < 2 ^ 64) (s : State)
    (h : Reachable w k s) :
    s.ops ≤ w * k ∧ s.ops = completedIncrements s
      ∧ (∀ j s', stepWorker k j s = some s' →
          s'.ops = s.ops ∨ (s.ops + 1 < 2 ^ 64 ∧ s.ops + 1 ≤ w * k ∧ s'.ops = s.ops + 1))
      ∧ (s.pc = MainPc.println ∨ s.pc = MainPc.exited → s.ops = w * k)
      ∧ ((50000 : Nat) < 2 ^ 64 ∧ ∀ t, Reachable 50 1000 t → t.ops ≤ 50000) := by
  have hi := inv_of_reachable h
  have he := ops_eq_completed hi hfit
  have hle := completed_le hi
  refine ⟨by rw [he]; exact hle, he, ?_, ?_, by norm_num, ?_⟩
  · intro j s' hstep
    have hi' := inv_stepWorker hi hstep
    have he' := ops_eq_completed hi' hfit
    have hle' := completed_le hi'
    rcases stepWorker_counts hi hstep with h1 | h1
    · right
      have h2 := h1.2.1
      refine ⟨by omega, by omega, by omega⟩
    · exact Or.inl h1.1
  · intro hx
    have hp := hi.pc_ok
    have hall : s.gs.length = w ∧ ∀ g ∈ s.gs, g.done = true := by
      rcases hx with hx | hx
      · rw [hx] at hp; exact ⟨hp.1, hp.2.1⟩
      · rw [hx] at hp; exact ⟨hp.1, hp.2.1⟩
    rw [ops_of_all_done hi hall.1 hall.2]
    exact Nat.mod_eq_of_lt hfit
  · intro t ht
    have hit := inv_of_reachable ht
    have hfit' : 50 * 1000 < uint64Size := by norm_num [uint64Size]
    rw [ops_eq_completed hit hfit']
    exact completed_le hit

/-- Witness of C10: the program as written (50 goroutines, 1000 increments
each), after the first increment of the first goroutine: the counter holds 1,
at most 50000, which is below 2^64. -/
theorem counter_never_overflows_witness :
    50 * 1000 < 2 ^ 64
      ∧ Reachable 50 1000
        { ops := 1, wg := 1, pc := MainPc.forLoop 1, gs := [⟨1, false⟩], stdout := "",
          panicked := false }
      ∧ (1 : Nat) ≤ 50 * 1000 :=
  have hr : Reachable 50 1000
      { ops := 1, wg := 1, pc := MainPc.forLoop 1, gs := [⟨1, false⟩], stdout := "",
        panicked := false } :=
    ⟨[Actor.main, Actor.main, Actor.worker 0], by decide⟩
  ⟨by norm_num, hr, (counter_never_overflows 50 1000 (by norm_num) _ hr).1⟩

end AtomicCounters
